import Mathlib

/-!
# Verification of the Bloom-filter password-uniqueness core (`src/blum_filter.py`)

Shallow embedding of the repository's Bloom filter and its password
classification workflow, followed by theorems settling the spec's claims.

Modelling conventions:
* Python `int` is `Int`; 32-bit hash arithmetic is `Nat` with explicit `% 2^32`.
* The `bitarray` bit array is a `List Bool`; `bitarray.setall(0)` gives
  `List.replicate size.toNat false`.
* `mmh3.hash(key, seed)` is MurmurHash3 x86 32-bit of the UTF-8 bytes of the
  key, returned as a signed 32-bit integer, implemented below from the
  published algorithm the `mmh3` library binds.
* Python `%` on integers with a positive modulus yields a value in `[0, m)`;
  `Int.emod` (Lean's `%` on `Int`) has the same behaviour for `m ≠ 0`.
* Methods that mutate `self` return the updated record; `check`, which only
  reads `self`, additionally gets a state-monad rendering to settle the
  read-only frame claim.
-/

namespace BlumFilter

/-- 32-bit truncation. -/
def mask32 (n : Nat) : Nat := n % 4294967296

/-- 32-bit left rotation (operand assumed `< 2^32`). -/
def rotl32 (x r : Nat) : Nat := mask32 (x <<< r) ||| (x >>> (32 - r))

/-- MurmurHash3 x86_32 block-mixing of a 32-bit chunk `k`. -/
def murmurMixK (k : Nat) : Nat :=
  mask32 (rotl32 (mask32 (k * 0xcc9e2d51)) 15 * 0x1b873593)

/-- MurmurHash3 x86_32 body: consume the byte stream four bytes at a time
(little-endian), then the 1–3 byte tail, returning the pre-finalisation
state. -/
def murmurBody (h : Nat) : List Nat → Nat
  | b0 :: b1 :: b2 :: b3 :: rest =>
      let k := b0 ||| (b1 <<< 8) ||| (b2 <<< 16) ||| (b3 <<< 24)
      murmurBody (mask32 (rotl32 (h ^^^ murmurMixK k) 13 * 5 + 0xe6546b64)) rest
  | [] => h
  | tail =>
      let k := tail.foldr (fun b acc => (acc <<< 8) ||| b) 0
      h ^^^ murmurMixK k

/-- MurmurHash3 x86_32 finalisation mix. -/
def murmurFinal (h len : Nat) : Nat :=
  let h1 := h ^^^ len
  let h2 := h1 ^^^ (h1 >>> 16)
  let h3 := mask32 (h2 * 0x85ebca6b)
  let h4 := h3 ^^^ (h3 >>> 13)
  let h5 := mask32 (h4 * 0xc2b2ae35)
  h5 ^^^ (h5 >>> 16)

/-- UTF-8 encoding of one character, as the list of its byte values. -/
def utf8EncodeChar (c : Char) : List Nat :=
  let n := c.toNat
  if n < 0x80 then [n]
  else if n < 0x800 then
    [0xC0 ||| (n >>> 6), 0x80 ||| (n &&& 0x3F)]
  else if n < 0x10000 then
    [0xE0 ||| (n >>> 12), 0x80 ||| ((n >>> 6) &&& 0x3F), 0x80 ||| (n &&& 0x3F)]
  else
    [0xF0 ||| (n >>> 18), 0x80 ||| ((n >>> 12) &&& 0x3F),
     0x80 ||| ((n >>> 6) &&& 0x3F), 0x80 ||| (n &&& 0x3F)]

/-- UTF-8 byte stream of a string. -/
def utf8Bytes (s : String) : List Nat := (s.data.map utf8EncodeChar).flatten

/-- `mmh3.hash(item, seed)`: signed 32-bit MurmurHash3 x86_32 of the UTF-8
bytes of `item`. -/
def mmh3hash (item : String) (seed : Nat) : Int :=
  let bytes := utf8Bytes item
  let h := murmurFinal (murmurBody (mask32 seed) bytes) bytes.length
  if h < 2147483648 then (h : Int) else (h : Int) - 4294967296

/-- The `BloomFilter` object of `src/blum_filter.py`: `size`, `num_hashes`
and the `bitarray` bit array. -/
structure BloomFilter where
  size : Int
  num_hashes : Int
  bit_array : List Bool
deriving DecidableEq, Repr

/-- Failure mode of `bitarray.bitarray(size)`: a negative length raises
`ValueError`. (The repository's `__init__` performs no check of its own.) -/
inductive ConstructionError where
  | valueError
deriving DecidableEq, Repr

/-- `BloomFilter.__init__`: stores `size` and `num_hashes` unchecked and
allocates `bitarray.bitarray(size)` zeroed by `setall(0)`; the only failure
is `bitarray`'s `ValueError` on a negative length. -/
def BloomFilter.init (size num_hashes : Int) : Except ConstructionError BloomFilter :=
  if size < 0 then .error .valueError
  else .ok { size := size, num_hashes := num_hashes,
             bit_array := List.replicate size.toNat false }

/-- `BloomFilter._hashes`: `[mmh3.hash(item, seed) % self.size for seed in
range(self.num_hashes)]`. (For `size = 0` Python would raise
`ZeroDivisionError`; every theorem below about a filter's operations assumes
`0 < size`, where `Int.emod` agrees with Python's `%`.) -/
def BloomFilter.hashes (f : BloomFilter) (item : String) : List Int :=
  (List.range f.num_hashes.toNat).map (fun seed => mmh3hash item seed % f.size)

/-- `BloomFilter.add`: sets `bit_array[hash_value] = 1` for each hash value.
(`List.set` at `h.toNat`; for a validly constructed filter every index is in
range, proved below.) -/
def BloomFilter.add (f : BloomFilter) (item : String) : BloomFilter :=
  { f with
    bit_array := (f.hashes item).foldl (fun bits h => bits.set h.toNat true) f.bit_array }

/-- `BloomFilter.check`: `all(self.bit_array[hash_value] for hash_value in
self._hashes(item))`. -/
def BloomFilter.check (f : BloomFilter) (item : String) : Bool :=
  (f.hashes item).all (fun h => f.bit_array.getD h.toNat false)

/-- State-passing rendering of the `check` method: its body only reads
`self` (via `self._hashes` and `self.bit_array`), it contains no store. -/
def BloomFilter.checkSt (item : String) : StateM BloomFilter Bool := do
  let f ← get
  pure ((f.hashes item).all (fun h => f.bit_array.getD h.toNat false))

/-- A filter as produced by a successful, positive-parameter construction:
positive `size` and `num_hashes`, and a bit array of length `size`. -/
def ValidFilter (f : BloomFilter) : Prop :=
  0 < f.size ∧ 0 < f.num_hashes ∧ f.bit_array.length = f.size.toNat

instance (f : BloomFilter) : Decidable (ValidFilter f) := by
  unfold ValidFilter; infer_instance

/-! ## The classifier `check_password_uniqueness` -/

/-- A classification input: the source processes a heterogeneous Python list
whose elements are strings or non-string values such as `None`
(`isinstance(password, str)` is the discriminator), so a candidate is an
optional string. -/
abbrev Candidate := Option String

/-- The status string recorded for a freshly seen password. -/
def statusUnique : String := "унікальний"

/-- The status string recorded when the filter reports the password as
possibly present. -/
def statusAlreadyUsed : String := "вже використаний"

/-- The status string recorded for a non-string or empty/whitespace-only
candidate. -/
def statusInvalid : String := "некоректний пароль"

/-- Python `str.strip()`: the string with leading and trailing whitespace
removed. (Defined on the character list so that it evaluates by kernel
reduction; `String.trim` in core is equivalent but reduction-opaque.
`Char.isWhitespace` covers the ASCII subset of Python's Unicode whitespace,
which is all the source's data exercises.) -/
def pyStrip (s : String) : String :=
  ⟨((s.data.dropWhile Char.isWhitespace).reverse.dropWhile Char.isWhitespace).reverse⟩

/-- The source's invalidity test for one candidate:
`not isinstance(password, str) or not password.strip()`. -/
def candidateInvalid : Candidate → Bool
  | none => true
  | some s => pyStrip s = ""

/-- Insertion/update into a Python `dict` rendered as an insertion-ordered
association list: assigning to an existing key updates its value in place
(keeping the key's original position), a new key is appended. -/
def dictInsert (d : List (Candidate × String)) (k : Candidate) (v : String) :
    List (Candidate × String) :=
  match d with
  | [] => [(k, v)]
  | (k', v') :: rest =>
      if k' = k then (k, v) :: rest else (k', v') :: dictInsert rest k v

/-- Key lookup in the insertion-ordered `dict` model (Python `d[k]`,
`none` when `k` is absent). -/
def dictLookup (d : List (Candidate × String)) (k : Candidate) : Option String :=
  match d with
  | [] => none
  | (k', v) :: rest => if k' = k then some v else dictLookup rest k

/-- The loop of `check_password_uniqueness`, with the results dict and the
mutated filter threaded explicitly. -/
def check_password_uniqueness_go (f : BloomFilter)
    (results : List (Candidate × String)) :
    List Candidate → List (Candidate × String) × BloomFilter
  | [] => (results, f)
  | p :: rest =>
      match p with
      | none =>
          check_password_uniqueness_go f (dictInsert results none statusInvalid) rest
      | some s =>
          if pyStrip s = "" then
            check_password_uniqueness_go f (dictInsert results (some s) statusInvalid) rest
          else if f.check s then
            check_password_uniqueness_go f (dictInsert results (some s) statusAlreadyUsed) rest
          else
            check_password_uniqueness_go (f.add s)
              (dictInsert results (some s) statusUnique) rest

/-- `check_password_uniqueness(bloom_filter, passwords)`: returns the results
dict; the filter argument is mutated, so the model also returns the final
filter state. -/
def check_password_uniqueness (bloom_filter : BloomFilter)
    (passwords : List Candidate) : List (Candidate × String) × BloomFilter :=
  check_password_uniqueness_go bloom_filter [] passwords

/-! ## Spec-side classifier (for the refinement claim C4)

The spec (§4.3) describes `classify` as a sequential stateful fold that
records, per candidate in input order: `Invalid` without touching the filter,
`AlreadyUsed` without mutating it, or `Unique` followed immediately by
`filter.add`.  `classifySpecTrace` renders those words as an ordered
per-occurrence trace; C4 relates the source's dict-threading loop to it. -/

/-- One step of the spec's classification rules (§4.3, items 1–3): the
recorded status and the resulting filter state. -/
def classifySpecStep (f : BloomFilter) (c : Candidate) : String × BloomFilter :=
  match c with
  | none => (statusInvalid, f)
  | some s =>
      if pyStrip s = "" then (statusInvalid, f)
      else if f.check s then (statusAlreadyUsed, f)
      else (statusUnique, f.add s)

/-- The spec's classification as an ordered list of per-candidate entries
(one entry per occurrence, in input order) together with the final filter. -/
def classifySpecTrace (f : BloomFilter) :
    List Candidate → List (Candidate × String) × BloomFilter
  | [] => ([], f)
  | c :: rest =>
      let step := classifySpecStep f c
      let toDo := classifySpecTrace step.2 rest
      ((c, step.1) :: toDo.1, toDo.2)

/-! ## Operation sequences (for the monotonicity claim C5) -/

/-- One core operation on a filter. -/
inductive Op where
  | addOp (item : String)
  | checkOp (item : String)
  | classifyOp (candidates : List Candidate)

/-- The filter state after one operation (`check` returns a boolean and
leaves the state unchanged, cf. `BloomFilter.checkSt`). -/
def runOp (f : BloomFilter) : Op → BloomFilter
  | .addOp x => f.add x
  | .checkOp x => ((BloomFilter.checkSt x).run f).2
  | .classifyOp cs => (check_password_uniqueness f cs).2

/-- The filter state after a sequence of operations. -/
def runOps (f : BloomFilter) (ops : List Op) : BloomFilter :=
  ops.foldl runOp f

/-! ## Bit-array lemmas -/

theorem getD_eq_false_of_length_le :
    ∀ (l : List Bool) (i : Nat), l.length ≤ i → l.getD i false = false := by
  intro l
  induction l with
  | nil => intro i _; cases i <;> rfl
  | cons b t ih =>
      intro i h
      cases i with
      | zero => simp at h
      | succ j => simpa [List.getD] using ih j (by simpa using h)

theorem lt_length_of_getD_true (l : List Bool) (i : Nat)
    (h : l.getD i false = true) : i < l.length := by
  by_contra hlt
  rw [getD_eq_false_of_length_le l i (by omega)] at h
  exact Bool.false_ne_true h

theorem getD_set_self :
    ∀ (l : List Bool) (i : Nat) (b : Bool), i < l.length →
      (l.set i b).getD i false = b := by
  intro l
  induction l with
  | nil => intro i b h; simp at h
  | cons x t ih =>
      intro i b h
      cases i with
      | zero => rfl
      | succ j => simpa [List.set, List.getD] using ih j b (by simpa using h)

theorem getD_set_ne :
    ∀ (l : List Bool) (i j : Nat) (b : Bool), i ≠ j →
      (l.set i b).getD j false = l.getD j false := by
  intro l
  induction l with
  | nil => intro i j b _; simp [List.set]
  | cons x t ih =>
      intro i j b hne
      cases i with
      | zero =>
          cases j with
          | zero => exact absurd rfl hne
          | succ k => rfl
      | succ i' =>
          cases j with
          | zero => rfl
          | succ k => simpa [List.set, List.getD] using ih i' k b (by omega)

theorem set_eq_of_getD_true :
    ∀ (l : List Bool) (i : Nat), l.getD i false = true → l.set i true = l := by
  intro l
  induction l with
  | nil => intro i _; rfl
  | cons x t ih =>
      intro i h
      cases i with
      | zero => simp [List.getD] at h; simp [List.set, h]
      | succ j =>
          simp only [List.set]
          rw [ih j (by simpa [List.getD] using h)]

theorem set_eq_of_length_le :
    ∀ (l : List Bool) (i : Nat) (b : Bool), l.length ≤ i → l.set i b = l := by
  intro l
  induction l with
  | nil => intro i b _; rfl
  | cons x t ih =>
      intro i b h
      cases i with
      | zero => simp at h
      | succ j => simp only [List.set]; rw [ih j b (by simpa using h)]

/-- The bit-setting fold of `BloomFilter.add` over a list of hash values. -/
def setBits (l : List Bool) (hs : List Int) : List Bool :=
  hs.foldl (fun bits h => bits.set h.toNat true) l

theorem setBits_nil (l : List Bool) : setBits l [] = l := rfl

theorem setBits_cons (l : List Bool) (h : Int) (hs : List Int) :
    setBits l (h :: hs) = setBits (l.set h.toNat true) hs := rfl

theorem length_setBits : ∀ (hs : List Int) (l : List Bool),
    (setBits l hs).length = l.length := by
  intro hs
  induction hs with
  | nil => intro l; rfl
  | cons h t ih =>
      intro l
      rw [setBits_cons, ih, List.length_set]

theorem getD_setBits_of_getD_true : ∀ (hs : List Int) (l : List Bool) (i : Nat),
    l.getD i false = true → (setBits l hs).getD i false = true := by
  intro hs
  induction hs with
  | nil => intro l i h; exact h
  | cons j t ih =>
      intro l i h
      rw [setBits_cons]
      apply ih
      by_cases hij : j.toNat = i
      · subst hij
        rw [getD_set_self l j.toNat true (lt_length_of_getD_true l j.toNat h)]
      · rw [getD_set_ne l j.toNat i true hij]; exact h

theorem getD_setBits_of_mem : ∀ (hs : List Int) (l : List Bool) (h : Int),
    h ∈ hs → h.toNat < l.length → (setBits l hs).getD h.toNat false = true := by
  intro hs
  induction hs with
  | nil => intro l h hmem _; cases hmem
  | cons j t ih =>
      intro l h hmem hlt
      rw [setBits_cons]
      rcases List.mem_cons.mp hmem with rfl | hmemt
      · apply getD_setBits_of_getD_true
        exact getD_set_self l h.toNat true hlt
      · exact ih (l.set j.toNat true) h hmemt (by rwa [List.length_set])

theorem setBits_eq_of_all_true : ∀ (hs : List Int) (l : List Bool),
    (∀ h ∈ hs, l.getD h.toNat false = true ∨ l.length ≤ h.toNat) →
    setBits l hs = l := by
  intro hs
  induction hs with
  | nil => intro l _; rfl
  | cons j t ih =>
      intro l hall
      have hj := hall j (List.mem_cons_self j t)
      have hset : l.set j.toNat true = l := by
        rcases hj with htrue | hge
        · exact set_eq_of_getD_true l j.toNat htrue
        · exact set_eq_of_length_le l j.toNat true hge
      rw [setBits_cons, hset]
      exact ih l (fun h hm => hall h (List.mem_cons_of_mem j hm))

theorem getD_false_of_all_false (l : List Bool) (i : Nat)
    (h : ∀ b ∈ l, b = false) : l.getD i false = false := by
  by_cases hlt : i < l.length
  · have := List.getD_eq_getElem l false hlt
    rw [this]
    exact h _ (List.getElem_mem hlt)
  · exact getD_eq_false_of_length_le l i (by omega)

/-! ## Filter lemmas -/

theorem ext_filter (f g : BloomFilter) (h1 : f.size = g.size)
    (h2 : f.num_hashes = g.num_hashes) (h3 : f.bit_array = g.bit_array) :
    f = g := by
  cases f; cases g; simp_all

theorem add_bit_array (f : BloomFilter) (x : String) :
    (f.add x).bit_array = setBits f.bit_array (f.hashes x) := rfl

theorem add_size (f : BloomFilter) (x : String) : (f.add x).size = f.size := rfl

theorem add_num_hashes (f : BloomFilter) (x : String) :
    (f.add x).num_hashes = f.num_hashes := rfl

theorem add_length (f : BloomFilter) (x : String) :
    (f.add x).bit_array.length = f.bit_array.length := by
  rw [add_bit_array, length_setBits]

theorem hashes_congr (f g : BloomFilter) (item : String)
    (h1 : f.size = g.size) (h2 : f.num_hashes = g.num_hashes) :
    f.hashes item = g.hashes item := by
  unfold BloomFilter.hashes
  rw [h1, h2]

theorem hashes_length (f : BloomFilter) (item : String) :
    (f.hashes item).length = f.num_hashes.toNat := by
  unfold BloomFilter.hashes
  rw [List.length_map, List.length_range]

theorem hashes_mem_bounds (f : BloomFilter) (item : String) (h : Int)
    (hsize : 0 < f.size) (hmem : h ∈ f.hashes item) : 0 ≤ h ∧ h < f.size := by
  unfold BloomFilter.hashes at hmem
  obtain ⟨seed, _, rfl⟩ := List.mem_map.mp hmem
  exact ⟨Int.emod_nonneg _ (by omega), Int.emod_lt_of_pos _ hsize⟩

theorem hashes_toNat_lt (f : BloomFilter) (item : String) (h : Int)
    (hv : ValidFilter f) (hmem : h ∈ f.hashes item) :
    h.toNat < f.bit_array.length := by
  obtain ⟨hsize, _, hlen⟩ := hv
  obtain ⟨_, hlt⟩ := hashes_mem_bounds f item h hsize hmem
  omega

theorem check_eq_true_iff (f : BloomFilter) (item : String) :
    f.check item = true ↔
      ∀ h ∈ f.hashes item, f.bit_array.getD h.toNat false = true := by
  unfold BloomFilter.check
  exact List.all_eq_true

theorem add_getD_of_mem_hashes (f : BloomFilter) (x : String) (h : Int)
    (hv : ValidFilter f) (hmem : h ∈ f.hashes x) :
    (f.add x).bit_array.getD h.toNat false = true := by
  rw [add_bit_array]
  exact getD_setBits_of_mem _ _ h hmem (hashes_toNat_lt f x h hv hmem)

theorem add_preserves_true (f : BloomFilter) (x : String) (i : Nat)
    (h : f.bit_array.getD i false = true) :
    (f.add x).bit_array.getD i false = true := by
  rw [add_bit_array]
  exact getD_setBits_of_getD_true _ _ i h

theorem check_add_self (f : BloomFilter) (x : String) (hv : ValidFilter f) :
    (f.add x).check x = true := by
  rw [check_eq_true_iff]
  intro h hmem
  rw [hashes_congr (f.add x) f x (add_size f x) (add_num_hashes f x)] at hmem
  exact add_getD_of_mem_hashes f x h hv hmem

theorem check_false_of_all_false (f : BloomFilter) (s : String)
    (hn : 0 < f.num_hashes) (hfalse : ∀ b ∈ f.bit_array, b = false) :
    f.check s = false := by
  have hne : f.hashes s ≠ [] := by
    intro hnil
    have := hashes_length f s
    rw [hnil] at this
    simp at this
    omega
  obtain ⟨h, hmem⟩ := List.exists_mem_of_ne_nil _ hne
  unfold BloomFilter.check
  rw [List.all_eq_false]
  exact ⟨h, hmem, by rw [getD_false_of_all_false _ _ hfalse]; simp⟩

theorem add_valid (f : BloomFilter) (x : String) (hv : ValidFilter f) :
    ValidFilter (f.add x) := by
  obtain ⟨h1, h2, h3⟩ := hv
  exact ⟨h1, h2, by rw [add_length]; exact h3⟩

/-! ## Classifier lemmas -/

theorem classify_go_size : ∀ (ps : List Candidate) (f : BloomFilter)
    (results : List (Candidate × String)),
    (check_password_uniqueness_go f results ps).2.size = f.size := by
  intro ps
  induction ps with
  | nil => intro f results; rfl
  | cons p rest ih =>
      intro f results
      cases p with
      | none => simpa [check_password_uniqueness_go] using ih f _
      | some s =>
          by_cases hstrip : pyStrip s = "" <;>
            by_cases hchk : f.check s = true <;>
            simp [check_password_uniqueness_go, hstrip, hchk, ih, add_size]

theorem classify_go_num_hashes : ∀ (ps : List Candidate) (f : BloomFilter)
    (results : List (Candidate × String)),
    (check_password_uniqueness_go f results ps).2.num_hashes = f.num_hashes := by
  intro ps
  induction ps with
  | nil => intro f results; rfl
  | cons p rest ih =>
      intro f results
      cases p with
      | none => simpa [check_password_uniqueness_go] using ih f _
      | some s =>
          by_cases hstrip : pyStrip s = "" <;>
            by_cases hchk : f.check s = true <;>
            simp [check_password_uniqueness_go, hstrip, hchk, ih, add_num_hashes]

theorem classify_go_length : ∀ (ps : List Candidate) (f : BloomFilter)
    (results : List (Candidate × String)),
    (check_password_uniqueness_go f results ps).2.bit_array.length =
      f.bit_array.length := by
  intro ps
  induction ps with
  | nil => intro f results; rfl
  | cons p rest ih =>
      intro f results
      cases p with
      | none => simpa [check_password_uniqueness_go] using ih f _
      | some s =>
          by_cases hstrip : pyStrip s = "" <;>
            by_cases hchk : f.check s = true <;>
            simp [check_password_uniqueness_go, hstrip, hchk, ih, add_length]

theorem classify_go_preserves_true : ∀ (ps : List Candidate) (f : BloomFilter)
    (results : List (Candidate × String)) (i : Nat),
    f.bit_array.getD i false = true →
    (check_password_uniqueness_go f results ps).2.bit_array.getD i false = true := by
  intro ps
  induction ps with
  | nil => intro f results i h; exact h
  | cons p rest ih =>
      intro f results i h
      cases p with
      | none => simpa [check_password_uniqueness_go] using ih f _ i h
      | some s =>
          by_cases hstrip : pyStrip s = "" <;> by_cases hchk : f.check s = true <;>
            simp only [check_password_uniqueness_go, hstrip, hchk, if_true, if_false,
              Bool.false_eq_true, ite_true, ite_false]
          · exact ih f _ i h
          · exact ih f _ i h
          · exact ih f _ i h
          · exact ih (f.add s) _ i (add_preserves_true f s i h)

/-- The source's dict-threading loop computes, into its accumulator, the
key-uniqued fold of the spec's ordered trace, and ends in the trace's final
filter state. -/
theorem classify_go_spec : ∀ (ps : List Candidate) (f : BloomFilter)
    (results : List (Candidate × String)),
    check_password_uniqueness_go f results ps =
      ((classifySpecTrace f ps).1.foldl (fun d kv => dictInsert d kv.1 kv.2) results,
       (classifySpecTrace f ps).2) := by
  intro ps
  induction ps with
  | nil => intro f results; rfl
  | cons p rest ih =>
      intro f results
      cases p with
      | none =>
          simp [check_password_uniqueness_go, classifySpecTrace, classifySpecStep, ih]
      | some s =>
          by_cases hstrip : pyStrip s = "" <;> by_cases hchk : f.check s = true <;>
            simp [check_password_uniqueness_go, classifySpecTrace, classifySpecStep,
              hstrip, hchk, ih]

theorem dictLookup_dictInsert_self :
    ∀ (d : List (Candidate × String)) (k : Candidate) (v : String),
      dictLookup (dictInsert d k v) k = some v := by
  intro d
  induction d with
  | nil => intro k v; simp [dictInsert, dictLookup]
  | cons kv rest ih =>
      intro k v
      obtain ⟨k', v'⟩ := kv
      by_cases h : k' = k
      · subst h; simp [dictInsert, dictLookup]
      · simp [dictInsert, dictLookup, h, ih]

theorem dictLookup_dictInsert_ne :
    ∀ (d : List (Candidate × String)) (k : Candidate) (v : String) (c : Candidate),
      k ≠ c → dictLookup (dictInsert d k v) c = dictLookup d c := by
  intro d
  induction d with
  | nil => intro k v c hne; simp [dictInsert, dictLookup, hne]
  | cons kv rest ih =>
      intro k v c hne
      obtain ⟨k', v'⟩ := kv
      by_cases h : k' = k
      · subst h; simp [dictInsert, dictLookup, hne]
      · simp [dictInsert, dictLookup, h, ih _ _ _ hne]

/-- One unfolding of the source loop: the head candidate is handled exactly
as one spec step, its status recorded into the dict, and the loop continues
on the remaining candidates. -/
theorem go_cons (f : BloomFilter) (results : List (Candidate × String))
    (p : Candidate) (rest : List Candidate) :
    check_password_uniqueness_go f results (p :: rest) =
      check_password_uniqueness_go (classifySpecStep f p).2
        (dictInsert results p (classifySpecStep f p).1) rest := by
  cases p with
  | none => rfl
  | some s =>
      by_cases hstrip : pyStrip s = "" <;> by_cases hchk : f.check s = true <;>
        simp [check_password_uniqueness_go, classifySpecStep, hstrip, hchk]

theorem classifySpecStep_invalid (f : BloomFilter) (c : Candidate)
    (h : candidateInvalid c = true) : classifySpecStep f c = (statusInvalid, f) := by
  cases c with
  | none => rfl
  | some s =>
      have hs : pyStrip s = "" := by simpa [candidateInvalid] using h
      simp [classifySpecStep, hs]

theorem go_lookup_not_mem : ∀ (ps : List Candidate) (f : BloomFilter)
    (results : List (Candidate × String)) (c : Candidate), c ∉ ps →
    dictLookup (check_password_uniqueness_go f results ps).1 c =
      dictLookup results c := by
  intro ps
  induction ps with
  | nil => intro f results c _; rfl
  | cons p rest ih =>
      intro f results c hc
      rw [go_cons, ih _ _ c (fun h => hc (List.mem_cons_of_mem p h))]
      exact dictLookup_dictInsert_ne _ _ _ _
        (fun h => hc (h ▸ List.mem_cons_self p rest))

/-- Every candidate of the batch ends with an entry in the results dict:
the loop never aborts, whatever the candidates. -/
theorem go_lookup_mem : ∀ (ps : List Candidate) (f : BloomFilter)
    (results : List (Candidate × String)) (c : Candidate), c ∈ ps →
    ∃ v, dictLookup (check_password_uniqueness_go f results ps).1 c = some v := by
  intro ps
  induction ps with
  | nil => intro f results c hc; cases hc
  | cons p rest ih =>
      intro f results c hc
      by_cases hrest : c ∈ rest
      · rw [go_cons]; exact ih _ _ c hrest
      · rcases List.mem_cons.mp hc with rfl | h
        · rw [go_cons, go_lookup_not_mem rest _ _ c hrest]
          exact ⟨(classifySpecStep f c).1, dictLookup_dictInsert_self results c _⟩
        · exact absurd h hrest

/-- An invalid candidate anywhere in the batch ends with an Invalid entry in
the results dict (every occurrence writes Invalid, so the surviving entry is
Invalid no matter how often it occurs). -/
theorem go_lookup_invalid : ∀ (ps : List Candidate) (f : BloomFilter)
    (results : List (Candidate × String)) (c : Candidate),
    c ∈ ps → candidateInvalid c = true →
    dictLookup (check_password_uniqueness_go f results ps).1 c =
      some statusInvalid := by
  intro ps
  induction ps with
  | nil => intro f results c hc _; cases hc
  | cons p rest ih =>
      intro f results c hc hinv
      by_cases hrest : c ∈ rest
      · rw [go_cons]; exact ih _ _ c hrest hinv
      · rcases List.mem_cons.mp hc with rfl | h
        · rw [go_cons, go_lookup_not_mem rest _ _ c hrest,
            classifySpecStep_invalid f c hinv]
          exact dictLookup_dictInsert_self results c statusInvalid
        · exact absurd h hrest

/-- The spec trace has exactly one entry per candidate, in input order. -/
theorem trace_keys : ∀ (ps : List Candidate) (f : BloomFilter),
    (classifySpecTrace f ps).1.map Prod.fst = ps := by
  intro ps
  induction ps with
  | nil => intro f; rfl
  | cons p rest ih => intro f; simp [classifySpecTrace, ih]

/-- Every trace entry of an invalid candidate carries the Invalid status. -/
theorem trace_invalid_status : ∀ (ps : List Candidate) (f : BloomFilter),
    ∀ e ∈ (classifySpecTrace f ps).1, candidateInvalid e.1 = true →
      e.2 = statusInvalid := by
  intro ps
  induction ps with
  | nil => intro f e he; cases he
  | cons p rest ih =>
      intro f e he hinv
      simp only [classifySpecTrace, List.mem_cons] at he
      rcases he with rfl | he
      · simp only at hinv
        rw [show ((p, (classifySpecStep f p).1) : Candidate × String).2 =
              (classifySpecStep f p).1 from rfl,
          classifySpecStep_invalid f p hinv]
      · exact ih _ e he hinv

theorem foldl_add_size : ∀ (ys : List String) (f : BloomFilter),
    (ys.foldl BloomFilter.add f).size = f.size := by
  intro ys
  induction ys with
  | nil => intro f; rfl
  | cons y t ih => intro f; rw [List.foldl_cons, ih, add_size]

theorem foldl_add_num_hashes : ∀ (ys : List String) (f : BloomFilter),
    (ys.foldl BloomFilter.add f).num_hashes = f.num_hashes := by
  intro ys
  induction ys with
  | nil => intro f; rfl
  | cons y t ih => intro f; rw [List.foldl_cons, ih, add_num_hashes]

theorem foldl_add_preserves_true : ∀ (ys : List String) (f : BloomFilter) (i : Nat),
    f.bit_array.getD i false = true →
    (ys.foldl BloomFilter.add f).bit_array.getD i false = true := by
  intro ys
  induction ys with
  | nil => intro f i h; exact h
  | cons y t ih =>
      intro f i h
      rw [List.foldl_cons]
      exact ih (f.add y) i (add_preserves_true f y i h)

/-- A concrete validly constructed filter, used by the witnesses below. -/
def testFilter : BloomFilter :=
  { size := 10, num_hashes := 2, bit_array := List.replicate 10 false }

/-! ## The claims -/

/-- Claim C1 — no false negatives: for every string `x` and every filter of
positive `size` and `num_hashes` with its bit array as allocated, after
`add(x)` and then any further `add` calls (no resets in between), `check(x)`
returns `True`. -/
theorem claim_C1_no_false_negatives (f : BloomFilter) (x : String)
    (ys : List String) (hv : ValidFilter f) :
    (ys.foldl BloomFilter.add (f.add x)).check x = true := by
  rw [check_eq_true_iff]
  intro h hmem
  rw [hashes_congr (ys.foldl BloomFilter.add (f.add x)) f x
        (by rw [foldl_add_size, add_size]) (by rw [foldl_add_num_hashes, add_num_hashes])]
    at hmem
  exact foldl_add_preserves_true ys (f.add x) h.toNat
    (add_getD_of_mem_hashes f x h hv hmem)

/-- Witness for C1 at a concrete filter and inputs. -/
theorem claim_C1_witness :
    ValidFilter testFilter ∧
      ((["b", "c"].foldl BloomFilter.add (testFilter.add "a")).check "a") = true :=
  ⟨by decide, claim_C1_no_false_negatives testFilter "a" ["b", "c"] (by decide)⟩

/-- Counterexample to C2 as stated: constructing with `size = 0` and
`num_hashes = 0` does not fail — `__init__` performs no validation, so the
construction succeeds with an empty bit array. -/
theorem claim_C2_counterexample :
    BloomFilter.init 0 0 =
      Except.ok { size := 0, num_hashes := 0, bit_array := [] } := rfl

/-- Claim C2 as amended — the constructor performs no parameter validation:
for every `size ≥ 0` and every `num_hashes` (zero and negative included),
construction succeeds, storing both parameters exactly as given (no clamping)
with a zero bit array of length `size`; no `InvalidConfiguration` guard
exists (the only failure is `bitarray`'s `ValueError` on a negative length). -/
theorem claim_C2_amended (size num_hashes : Int) (h : 0 ≤ size) :
    BloomFilter.init size num_hashes =
      Except.ok { size := size, num_hashes := num_hashes,
                  bit_array := List.replicate size.toNat false } := by
  unfold BloomFilter.init
  rw [if_neg (by omega)]

/-- Witness for the amended C2: `size = 5`, `num_hashes = -3` constructs
successfully. -/
theorem claim_C2_witness :
    (0 : Int) ≤ 5 ∧
      BloomFilter.init 5 (-3) =
        Except.ok { size := 5, num_hashes := -3,
                    bit_array := List.replicate (5 : Int).toNat false } :=
  ⟨by decide, claim_C2_amended 5 (-3) (by decide)⟩

/-- Claim C3 — membership test definition: `check(item)` is `True` iff each
of the `num_hashes` bit-array positions `mmh3.hash(item, seed) % size`,
`seed = 0 .. num_hashes - 1`, is currently set. -/
theorem claim_C3_check_iff_all_set (f : BloomFilter) (item : String) :
    f.check item = true ↔
      ∀ k < f.num_hashes.toNat,
        f.bit_array.getD ((mmh3hash item k % f.size).toNat) false = true := by
  rw [check_eq_true_iff]
  unfold BloomFilter.hashes
  constructor
  · intro hall k hk
    exact hall _ (List.mem_map.mpr ⟨k, List.mem_range.mpr hk, rfl⟩)
  · intro hall h hmem
    obtain ⟨seed, hseed, rfl⟩ := List.mem_map.mp hmem
    exact hall seed (List.mem_range.mp hseed)

/-- Claim C4 — classification algorithm: the source's
`check_password_uniqueness` is the sequential stateful fold the spec
describes: per candidate in input order it records Invalid (non-string or
empty after strip, filter untouched), AlreadyUsed (filter reports possible
membership, filter unmutated) or Unique (followed immediately by `add`); the
returned dict is the key-uniqued fold of that ordered trace and the filter
ends in the trace's final state. -/
theorem claim_C4_classify_is_spec_fold (f : BloomFilter) (ps : List Candidate) :
    check_password_uniqueness f ps =
      ((classifySpecTrace f ps).1.foldl (fun d kv => dictInsert d kv.1 kv.2) [],
       (classifySpecTrace f ps).2) :=
  classify_go_spec ps f []

/-- Claim C5 — monotonicity: across any sequence of `add`, `check` and
classify operations a set bit stays set (and the bit array keeps its
length, so the set of set positions never decreases). -/
theorem claim_C5_monotonic_bits (ops : List Op) (f : BloomFilter) (i : Nat) :
    (f.bit_array.getD i false = true →
      (runOps f ops).bit_array.getD i false = true) ∧
    (runOps f ops).bit_array.length = f.bit_array.length := by
  induction ops generalizing f with
  | nil => exact ⟨fun h => h, rfl⟩
  | cons op t ih =>
      have hstep1 : f.bit_array.getD i false = true →
          (runOp f op).bit_array.getD i false = true := by
        cases op with
        | addOp x => exact add_preserves_true f x i
        | checkOp x => exact fun h => h
        | classifyOp cs => exact classify_go_preserves_true cs f [] i
      have hstep2 : (runOp f op).bit_array.length = f.bit_array.length := by
        cases op with
        | addOp x => exact add_length f x
        | checkOp x => rfl
        | classifyOp cs => exact classify_go_length cs f []
      have hstep3 : runOps f (op :: t) = runOps (runOp f op) t := rfl
      constructor
      · intro h
        rw [hstep3]
        exact (ih (runOp f op)).1 (hstep1 h)
      · rw [hstep3, (ih (runOp f op)).2, hstep2]

/-- Claim C6 — idempotence of `add`: adding the same item twice in
succession yields exactly the bit array of adding it once. -/
theorem claim_C6_add_idempotent (f : BloomFilter) (x : String) :
    (f.add x).add x = f.add x := by
  refine ext_filter ((f.add x).add x) (f.add x) rfl rfl ?_
  rw [add_bit_array (f.add x) x, add_bit_array f x,
    hashes_congr (f.add x) f x (add_size f x) (add_num_hashes f x)]
  apply setBits_eq_of_all_true
  intro h hm
  by_cases hlt : h.toNat < f.bit_array.length
  · exact Or.inl (getD_setBits_of_mem (f.hashes x) f.bit_array h hm hlt)
  · right
    rw [length_setBits]
    omega

/-- Claim C7 — hash totality and range: for a validly constructed filter the
hash family yields exactly `num_hashes` indices, each in `[0, size)` (Python's
`%` is non-negative for a positive modulus even on negative 32-bit hash
values), hence within the bit array's bounds, so `add` and `check` never
index out of range. -/
theorem claim_C7_hashes_in_range (f : BloomFilter) (item : String)
    (hv : ValidFilter f) :
    (f.hashes item).length = f.num_hashes.toNat ∧
    (∀ h ∈ f.hashes item, 0 ≤ h ∧ h < f.size) ∧
    (∀ h ∈ f.hashes item, h.toNat < f.bit_array.length) :=
  ⟨hashes_length f item,
   fun h hm => hashes_mem_bounds f item h hv.1 hm,
   fun h hm => hashes_toNat_lt f item h hv hm⟩

/-- Witness for C7 at a concrete filter and item. -/
theorem claim_C7_witness :
    ValidFilter testFilter ∧
      ((testFilter.hashes "a").length = testFilter.num_hashes.toNat ∧
       (∀ h ∈ testFilter.hashes "a", 0 ≤ h ∧ h < testFilter.size) ∧
       (∀ h ∈ testFilter.hashes "a", h.toNat < testFilter.bit_array.length)) :=
  ⟨by decide, claim_C7_hashes_in_range testFilter "a" (by decide)⟩

/-- Claim C8 — invalid candidates are absorbed, never raised: for every
filter and every candidate sequence, processing is total with one trace entry
per candidate in input order; every occurrence of a candidate that is not a
non-empty string after stripping is recorded as Invalid; every candidate of
the batch — also those after an invalid one — ends with an entry in the
returned dict (processing continues, nothing is raised), and an invalid
candidate's surviving entry is Invalid; in particular, on an all-zero filter
with at least one hash function the batch `[None, "", "   ", "ok"]` yields
Invalid, Invalid, Invalid, Unique in order, with only `"ok"` added. -/
theorem claim_C8_invalid_absorbed (f : BloomFilter) (ps : List Candidate) :
    ((classifySpecTrace f ps).1.map Prod.fst = ps ∧
      ∀ e ∈ (classifySpecTrace f ps).1, candidateInvalid e.1 = true →
        e.2 = statusInvalid) ∧
    (∀ c ∈ ps, ∃ v, dictLookup (check_password_uniqueness f ps).1 c = some v) ∧
    (∀ c ∈ ps, candidateInvalid c = true →
      dictLookup (check_password_uniqueness f ps).1 c = some statusInvalid) ∧
    (0 < f.num_hashes → (∀ b ∈ f.bit_array, b = false) →
      check_password_uniqueness f [none, some "", some "   ", some "ok"] =
        ([(none, statusInvalid), (some "", statusInvalid),
          (some "   ", statusInvalid), (some "ok", statusUnique)], f.add "ok")) := by
  refine ⟨⟨trace_keys ps f, trace_invalid_status ps f⟩,
    fun c hc => go_lookup_mem ps f [] c hc,
    fun c hc hinv => go_lookup_invalid ps f [] c hc hinv,
    fun hn hfalse => ?_⟩
  have hok : f.check "ok" = false := check_false_of_all_false f "ok" hn hfalse
  have h1 : pyStrip "" = "" := by decide
  have h2 : pyStrip "   " = "" := by decide
  have h3 : pyStrip "ok" = "ok" := by decide
  simp [check_password_uniqueness, check_password_uniqueness_go, dictInsert,
    hok, h1, h2, h3, statusInvalid, statusUnique, statusAlreadyUsed]

/-- Witness for C8: the concrete batch of the spec on a concrete empty
filter, via the universal theorem. -/
theorem claim_C8_witness :
    0 < testFilter.num_hashes ∧ (∀ b ∈ testFilter.bit_array, b = false) ∧
      check_password_uniqueness testFilter [none, some "", some "   ", some "ok"] =
        ([(none, statusInvalid), (some "", statusInvalid),
          (some "   ", statusInvalid), (some "ok", statusUnique)],
         testFilter.add "ok") :=
  ⟨by decide, by decide,
   (claim_C8_invalid_absorbed testFilter
      [none, some "", some "   ", some "ok"]).2.2.2 (by decide) (by decide)⟩

/-- Claim C9 — within-batch duplicate detection: on an all-zero validly
constructed filter, classifying `["a", "a"]` records the first occurrence as
Unique and the second as AlreadyUsed (the spec-side ordered trace), while the
key-uniqued dict the source returns keeps only the later occurrence's entry. -/
theorem claim_C9_duplicate_detected (f : BloomFilter) (hv : ValidFilter f)
    (hfalse : ∀ b ∈ f.bit_array, b = false) :
    classifySpecTrace f [some "a", some "a"] =
      ([(some "a", statusUnique), (some "a", statusAlreadyUsed)], f.add "a") ∧
    check_password_uniqueness f [some "a", some "a"] =
      ([(some "a", statusAlreadyUsed)], f.add "a") := by
  have hchk : f.check "a" = false := check_false_of_all_false f "a" hv.2.1 hfalse
  have hchk2 : (f.add "a").check "a" = true := check_add_self f "a" hv
  have hstrip : pyStrip "a" = "a" := by decide
  constructor <;>
    simp [classifySpecTrace, classifySpecStep, check_password_uniqueness,
      check_password_uniqueness_go, dictInsert, hchk, hchk2, hstrip]

/-- Witness for C9 at a concrete empty filter. -/
theorem claim_C9_witness :
    (ValidFilter testFilter ∧ ∀ b ∈ testFilter.bit_array, b = false) ∧
      (classifySpecTrace testFilter [some "a", some "a"] =
        ([(some "a", statusUnique), (some "a", statusAlreadyUsed)],
         testFilter.add "a") ∧
       check_password_uniqueness testFilter [some "a", some "a"] =
        ([(some "a", statusAlreadyUsed)], testFilter.add "a")) :=
  ⟨⟨by decide, by decide⟩,
   claim_C9_duplicate_detected testFilter (by decide) (by decide)⟩

/-- Claim C10 — the query is read-only: running the `check` method's body on
any filter state returns the membership boolean and leaves the state (size,
num_hashes and every bit) exactly as it was. -/
theorem claim_C10_check_readonly (f : BloomFilter) (item : String) :
    (BloomFilter.checkSt item).run f = (f.check item, f) := rfl

end BlumFilter
